import Mathlib

/-!
Verification of the batch-resizer image normalization tool
(src/batch_resizer/__main__.py), as a shallow embedding in Lean.

Numeric conventions: Python's exact arithmetic on the scale factor is
modelled over the rationals; Python's `int()` applied to a nonnegative
value is integer truncation, i.e. the floor.  The JPEG codec is external
(spec section 6): its encoder is modelled as an arbitrary function from
quality level to encoded byte size, deterministic for a fixed pixel
buffer, exactly as that contract requires.
-/

namespace BatchResizer

/-- The scale factor of process_image, line 28 of the source:
scale = max(1.0, min_width / orig_w, min_height / orig_h),
over exact rational arithmetic. -/
def scaleFor (minWidth minHeight origW origH : ℕ) : ℚ :=
  max 1 (max ((minWidth : ℚ) / (origW : ℚ)) ((minHeight : ℚ) / (origH : ℚ)))

/-- The output pixel dimensions of process_image, lines 29-31 of the source:
if scale > 1.0 the image is resized to
(int(orig_w * scale), int(orig_h * scale)), otherwise it is left alone.
Python's int() truncates, which is the floor on these nonnegative values. -/
def resizedDims (minWidth minHeight origW origH : ℕ) : ℕ × ℕ :=
  let s := scaleFor minWidth minHeight origW origH
  if 1 < s then
    ((⌊(origW : ℚ) * s⌋).toNat, (⌊(origH : ℚ) * s⌋).toNat)
  else (origW, origH)

/-- The byte budget of the quality loop, line 37 of the source:
max_size_kb * 1000 (a decimal kilobyte, not 1024). -/
def byteBudget (maxSizeKB : ℕ) : ℕ := maxSizeKB * 1000

/-- The quality-reduction loop of process_image, lines 34-41 of the source.
Given the encoder (quality level to encoded byte size) and the byte budget,
started at quality q after the initial encode at q:
while buffer.tell() > budget and quality > 10: quality -= 5; re-encode.
Returns the final quality together with the number of re-encodings the
loop body performed. -/
def qualityLoop (enc : ℕ → ℕ) (budget : ℕ) (q : ℕ) : ℕ × ℕ :=
  if h : budget < enc q ∧ 10 < q then
    let r := qualityLoop enc budget (q - 5)
    (r.1, r.2 + 1)
  else (q, 0)
termination_by q
decreasing_by omega

/-- The result of phase 2 of process_image: the final encoded byte size, the
quality that produced it, and the total number of img.save calls. -/
structure EncodedResult where
  size : ℕ
  quality : ℕ
  encodings : ℕ
  deriving Repr, DecidableEq

/-- Phase 2 of process_image, lines 34-41 of the source: the initial encode
happens at quality 85, then the loop reduces quality in steps of 5. -/
def processEncoding (enc : ℕ → ℕ) (maxSizeKB : ℕ) : EncodedResult :=
  let r := qualityLoop enc (byteBudget maxSizeKB) 85
  { size := enc r.1, quality := r.1, encodings := r.2 + 1 }

/-- The full result of process_image on one decoded image: output pixel
dimensions and the encoded result. -/
structure ImageResult where
  width : ℕ
  height : ℕ
  encoded : EncodedResult
  deriving Repr, DecidableEq

/-- The computational content of process_image, lines 22-41 of the source:
upscale if below the minimum dimensions, then compress by lowering JPEG
quality.  The encoder is abstract: it maps the resized pixel dimensions and
a quality level to an encoded byte size. -/
def process_image (minWidth minHeight origW origH : ℕ)
    (enc : ℕ → ℕ → ℕ → ℕ) (maxSizeKB : ℕ) : ImageResult :=
  let dims := resizedDims minWidth minHeight origW origH
  { width := dims.1
    height := dims.2
    encoded := processEncoding (enc dims.1 dims.2) maxSizeKB }

/- ## Filesystem model: candidate selection and output-path derivation -/

/-- A filesystem entry as pathlib presents it to the walker: whether it is a
regular file, its stem (final component with the extension stripped) and its
extension (the final dot-prefixed component, such as ".jpg"). -/
structure FSEntry where
  isFile : Bool
  stem : String
  ext : String
  deriving Repr, DecidableEq

/-- Python's substring containment test needle in hay, on the underlying
character lists. -/
def containsSubstr (needle hay : String) : Bool :=
  decide (needle.data <:+: hay.data)

/-- The candidate test of process_directory, lines 67-70 of the source:
path.is_file() and path.suffix.lower() in (".jpg", ".jpeg")
and f"_{sfx}" not in path.stem. -/
def isCandidate (sfx : String) (e : FSEntry) : Bool :=
  e.isFile && (e.ext.toLower == ".jpg" || e.ext.toLower == ".jpeg")
    && !containsSubstr ("_" ++ sfx) e.stem

/-- The part of the filesystem process_directory sees: whether the root path
references a directory, and the entries rglob enumerates beneath it. -/
structure DirTree where
  rootIsDir : Bool
  entries : List FSEntry
  deriving Repr, DecidableEq

/-- The errors of the walker that the claims mention. -/
inductive BatchError where
  | notADirectory
  deriving Repr, DecidableEq

/-- The walker process_directory, lines 62-71 of the source: raise
NotADirectoryError when the root is not a directory, otherwise process
exactly the entries passing the candidate test.  The returned list holds the
entries handed to process_image. -/
def processDirectory (sfx : String) (t : DirTree) : Except BatchError (List FSEntry) :=
  if t.rootIsDir then
    Except.ok (t.entries.filter (fun e => isCandidate sfx e))
  else
    Except.error BatchError.notADirectory

/-- The name of an entry, stem followed by extension. -/
def entryName (e : FSEntry) : String := e.stem ++ e.ext

/-- The output path derivation of process_image, lines 44-45 of the source:
new_name = f"{path.stem}_{sfx}{path.suffix}", a sibling in the same
directory.  For an extension of the form ".jpg" the stem of the new name is
the old stem followed by an underscore and the suffix. -/
def outputEntry (sfx : String) (e : FSEntry) : FSEntry :=
  { isFile := true, stem := e.stem ++ "_" ++ sfx, ext := e.ext }

/-- The output file name written by process_image. -/
def outputName (sfx : String) (e : FSEntry) : String :=
  e.stem ++ "_" ++ sfx ++ e.ext

/-- The set of paths process_image writes, lines 44-47 of the source: exactly
the derived sibling path, opened with mode "wb" (created or overwritten
unconditionally). -/
def processImageWrites (sfx : String) (e : FSEntry) : List FSEntry :=
  [outputEntry sfx e]

/-- The idempotency guard fires on every derived output: its stem contains
the underscore-suffix marker as a trailing substring. -/
theorem output_not_candidate (sfx : String) (e : FSEntry) :
    isCandidate sfx (outputEntry sfx e) = false := by
  have hmem : containsSubstr ("_" ++ sfx) (e.stem ++ "_" ++ sfx) = true := by
    simp only [containsSubstr, decide_eq_true_eq]
    exact ⟨e.stem.data, [], by simp [String.data_append]⟩
  simp [isCandidate, outputEntry, hmem]

/-- C6: a filesystem entry is processed by process_directory if and only if
it is a regular file, its extension compared case-insensitively is .jpg or
.jpeg, and its stem does not contain the literal substring formed by an
underscore followed by the suffix. -/
theorem candidate_characterization (sfx : String) (es : List FSEntry) (e : FSEntry) :
    ∃ l, processDirectory sfx ⟨true, es⟩ = Except.ok l ∧
      (e ∈ l ↔ e ∈ es ∧ e.isFile = true ∧
        (e.ext.toLower = ".jpg" ∨ e.ext.toLower = ".jpeg") ∧
        ¬ ("_" ++ sfx).data <:+: e.stem.data) := by
  refine ⟨es.filter (fun x => isCandidate sfx x), by simp [processDirectory], ?_⟩
  rw [List.mem_filter]
  simp [isCandidate, containsSubstr, and_assoc]

/-- C7: a second run over the outputs of a first run processes nothing;
every path derived by process_image carries the underscore-suffix marker in
its stem, so it fails the candidate test. -/
theorem second_run_no_candidates (sfx : String) (es : List FSEntry) :
    processDirectory sfx ⟨true, es.map (outputEntry sfx)⟩ = Except.ok [] := by
  simp only [processDirectory, if_pos]
  congr 1
  rw [List.filter_eq_nil_iff]
  intro e he
  rcases List.mem_map.mp he with ⟨x, _, rfl⟩
  simp [output_not_candidate]

/-- C8: process_image writes only the derived sibling path, whose name
appends an underscore and the suffix to the stem; that name differs from the
input name for every suffix, the empty one included, so the originating file
is never written. -/
theorem output_path_distinct (sfx : String) (e : FSEntry) :
    processImageWrites sfx e = [outputEntry sfx e] ∧
    outputName sfx e ≠ entryName e ∧
    ∀ x ∈ processImageWrites sfx e, entryName x ≠ entryName e := by
  have h1 : ("_" : String).length = 1 := rfl
  refine ⟨rfl, ?_, ?_⟩
  · intro heq
    have := congrArg String.length heq
    simp only [outputName, entryName, String.length_append, h1] at this
    omega
  · intro x hx heq
    rcases List.mem_singleton.mp hx with rfl
    have := congrArg String.length heq
    simp only [outputEntry, entryName, String.length_append, h1] at this
    omega

/-- C9: when the root is not a directory, process_directory fails with
NotADirectoryError before any traversal, and no entry is processed. -/
theorem not_a_directory_fail_fast (sfx : String) (es : List FSEntry) :
    processDirectory sfx ⟨false, es⟩ = Except.error BatchError.notADirectory ∧
    ∀ l, processDirectory sfx ⟨false, es⟩ ≠ Except.ok l := by
  refine ⟨by simp [processDirectory], ?_⟩
  intro l h
  simp [processDirectory] at h

/- ## Loop invariants for the quality-reduction phase -/

/-- The quality only decreases across the loop. -/
theorem qualityLoop_fst_le (enc : ℕ → ℕ) (budget q : ℕ) :
    (qualityLoop enc budget q).1 ≤ q := by
  induction q using Nat.strong_induction_on with
  | _ q ih =>
    rw [qualityLoop]
    split
    · next h =>
      have := ih (q - 5) (by omega)
      simp only
      omega
    · simp

/-- Main invariant of the quality loop: starting from a quality that is a
multiple of 5 and at least 10, the loop ends at such a quality, with the
encoded size within budget or the quality at the floor 10, and the number of
loop iterations bounded by the distance to the floor divided by the step. -/
theorem qualityLoop_inv (enc : ℕ → ℕ) (budget : ℕ) (q : ℕ)
    (h5 : q % 5 = 0) (h10 : 10 ≤ q) :
    (qualityLoop enc budget q).1 % 5 = 0 ∧
    10 ≤ (qualityLoop enc budget q).1 ∧
    (enc (qualityLoop enc budget q).1 ≤ budget ∨ (qualityLoop enc budget q).1 = 10) ∧
    (qualityLoop enc budget q).2 * 5 + 10 ≤ q := by
  induction q using Nat.strong_induction_on with
  | _ q ih =>
    rw [qualityLoop]
    split
    · next h =>
      have h15 : 15 ≤ q := by omega
      have := ih (q - 5) (by omega) (by omega) (by omega)
      simp only
      omega
    · next h =>
      have : enc q ≤ budget ∨ q = 10 := by
        rcases Nat.lt_or_ge budget (enc q) with hlt | hle
        · right; omega
        · left; exact hle
      simp only
      omega

/-- C2: the encoded result of process_image is within the byte budget, or it
was produced at the quality floor 10. -/
theorem size_budget_best_effort (minWidth minHeight origW origH : ℕ)
    (enc : ℕ → ℕ → ℕ → ℕ) (maxSizeKB : ℕ) :
    (process_image minWidth minHeight origW origH enc maxSizeKB).encoded.size
        ≤ byteBudget maxSizeKB ∨
    (process_image minWidth minHeight origW origH enc maxSizeKB).encoded.quality = 10 := by
  have h := qualityLoop_inv
    (enc (resizedDims minWidth minHeight origW origH).1
      (resizedDims minWidth minHeight origW origH).2)
    (byteBudget maxSizeKB) 85 (by decide) (by decide)
  simp only [process_image, processEncoding]
  exact h.2.2.1

/-- C5: the quality-reduction loop of process_image terminates after at most
16 encodings; the quality starts at 85, moves in steps of 5 and never falls
below the floor 10. -/
theorem quality_loop_termination (minWidth minHeight origW origH : ℕ)
    (enc : ℕ → ℕ → ℕ → ℕ) (maxSizeKB : ℕ) :
    (process_image minWidth minHeight origW origH enc maxSizeKB).encoded.encodings ≤ 16 ∧
    10 ≤ (process_image minWidth minHeight origW origH enc maxSizeKB).encoded.quality ∧
    (process_image minWidth minHeight origW origH enc maxSizeKB).encoded.quality ≤ 85 ∧
    (process_image minWidth minHeight origW origH enc maxSizeKB).encoded.quality % 5 = 0 := by
  have h := qualityLoop_inv
    (enc (resizedDims minWidth minHeight origW origH).1
      (resizedDims minWidth minHeight origW origH).2)
    (byteBudget maxSizeKB) 85 (by decide) (by decide)
  have hle := qualityLoop_fst_le
    (enc (resizedDims minWidth minHeight origW origH).1
      (resizedDims minWidth minHeight origW origH).2)
    (byteBudget maxSizeKB) 85
  simp only [process_image, processEncoding]
  exact ⟨by omega, h.2.1, hle, h.1⟩

/-- C10: the loop compares the encoded size against max_size_kb * 1000, a
decimal factor, not 1024: the quality stays at the initial 85 exactly when
the very first encoding already fits under that budget. -/
theorem byte_budget_decimal (minWidth minHeight origW origH : ℕ)
    (enc : ℕ → ℕ → ℕ → ℕ) (maxSizeKB : ℕ) :
    (process_image minWidth minHeight origW origH enc maxSizeKB).encoded.quality = 85 ↔
    enc (process_image minWidth minHeight origW origH enc maxSizeKB).width
        (process_image minWidth minHeight origW origH enc maxSizeKB).height 85
      ≤ maxSizeKB * 1000 := by
  simp only [process_image, processEncoding, byteBudget]
  rw [qualityLoop]
  split
  · next h =>
    have hle := qualityLoop_fst_le
      (enc (resizedDims minWidth minHeight origW origH).1
        (resizedDims minWidth minHeight origW origH).2)
      (maxSizeKB * 1000) (85 - 5)
    simp only
    constructor
    · intro hq; omega
    · intro hq; omega
  · next h =>
    simp only
    constructor
    · intro _; omega
    · intro _; trivial

/- ## Dimension-phase facts -/

/-- The scale factor is at least the width ratio. -/
theorem scaleFor_width_ratio_le (minWidth minHeight origW origH : ℕ) :
    (minWidth : ℚ) / origW ≤ scaleFor minWidth minHeight origW origH :=
  le_trans (le_max_left _ _) (le_max_right _ _)

/-- The scale factor is at least the height ratio. -/
theorem scaleFor_height_ratio_le (minWidth minHeight origW origH : ℕ) :
    (minHeight : ℚ) / origH ≤ scaleFor minWidth minHeight origW origH :=
  le_trans (le_max_right _ _) (le_max_right _ _)

/-- The scale factor is at least one. -/
theorem one_le_scaleFor (minWidth minHeight origW origH : ℕ) :
    1 ≤ scaleFor minWidth minHeight origW origH :=
  le_max_left _ _

/-- C1: an image below either minimum comes out of process_image with width
at least min_width and height at least min_height, and the output aspect
ratio matches the input aspect ratio within rounding tolerance: the
cross-multiplied difference is smaller than the larger input dimension. -/
theorem resolution_floor (minWidth minHeight origW origH : ℕ)
    (enc : ℕ → ℕ → ℕ → ℕ) (maxSizeKB : ℕ)
    (hw : 0 < origW) (hh : 0 < origH)
    (hbelow : origW < minWidth ∨ origH < minHeight) :
    minWidth ≤ (process_image minWidth minHeight origW origH enc maxSizeKB).width ∧
    minHeight ≤ (process_image minWidth minHeight origW origH enc maxSizeKB).height ∧
    |((process_image minWidth minHeight origW origH enc maxSizeKB).width : ℤ) * origH -
        ((process_image minWidth minHeight origW origH enc maxSizeKB).height : ℤ) * origW| <
      ((max origW origH : ℕ) : ℤ) := by
  have hw' : (0 : ℚ) < origW := by exact_mod_cast hw
  have hh' : (0 : ℚ) < origH := by exact_mod_cast hh
  set s := scaleFor minWidth minHeight origW origH with hsdef
  have hsa : (minWidth : ℚ) / origW ≤ s := scaleFor_width_ratio_le _ _ _ _
  have hsb : (minHeight : ℚ) / origH ≤ s := scaleFor_height_ratio_le _ _ _ _
  have hs1 : 1 < s := by
    rcases hbelow with hb | hb
    · exact lt_of_lt_of_le ((one_lt_div hw').mpr (by exact_mod_cast hb)) hsa
    · exact lt_of_lt_of_le ((one_lt_div hh').mpr (by exact_mod_cast hb)) hsb
  have hs0 : (0 : ℚ) < s := lt_trans one_pos hs1
  have hA0 : 0 ≤ ⌊(origW : ℚ) * s⌋ := Int.floor_nonneg.mpr (by positivity)
  have hB0 : 0 ≤ ⌊(origH : ℚ) * s⌋ := Int.floor_nonneg.mpr (by positivity)
  have hdims : resizedDims minWidth minHeight origW origH =
      ((⌊(origW : ℚ) * s⌋).toNat, (⌊(origH : ℚ) * s⌋).toNat) := by
    rw [resizedDims, if_pos hs1]
  have hminW : (minWidth : ℚ) ≤ origW * s := by
    have := (div_le_iff₀ hw').mp hsa
    linarith
  have hminH : (minHeight : ℚ) ≤ origH * s := by
    have := (div_le_iff₀ hh').mp hsb
    linarith
  simp only [process_image, hdims]
  refine ⟨?_, ?_, ?_⟩
  · rw [Int.le_toNat hA0]
    exact Int.le_floor.mpr (by exact_mod_cast hminW)
  · rw [Int.le_toNat hB0]
    exact Int.le_floor.mpr (by exact_mod_cast hminH)
  · set A := ⌊(origW : ℚ) * s⌋ with hAdef
    set B := ⌊(origH : ℚ) * s⌋ with hBdef
    have hAc : ((A.toNat : ℕ) : ℤ) = A := Int.toNat_of_nonneg hA0
    have hBc : ((B.toNat : ℕ) : ℤ) = B := Int.toNat_of_nonneg hB0
    rw [hAc, hBc]
    have hA1 : (A : ℚ) ≤ origW * s := Int.floor_le _
    have hA2 : (origW : ℚ) * s < A + 1 := Int.lt_floor_add_one _
    have hB1 : (B : ℚ) ≤ origH * s := Int.floor_le _
    have hB2 : (origH : ℚ) * s < B + 1 := Int.lt_floor_add_one _
    have hub : (A : ℚ) * origH - B * origW < origW := by
      have e1 : (A : ℚ) * origH ≤ (origW * s) * origH :=
        mul_le_mul_of_nonneg_right hA1 hh'.le
      have e2 : ((origH : ℚ) * s - 1) * origW < B * origW :=
        mul_lt_mul_of_pos_right (by linarith) hw'
      nlinarith [e1, e2]
    have hlb : -(origH : ℚ) < (A : ℚ) * origH - B * origW := by
      have e3 : ((origW : ℚ) * s - 1) * origH < A * origH :=
        mul_lt_mul_of_pos_right (by linarith) hh'
      have e4 : (B : ℚ) * origW ≤ ((origH : ℚ) * s) * origW :=
        mul_le_mul_of_nonneg_right hB1 hw'.le
      nlinarith [e3, e4]
    have hubZ : A * origH - B * origW < (origW : ℤ) := by exact_mod_cast hub
    have hlbZ : -(origH : ℤ) < A * origH - B * origW := by exact_mod_cast hlb
    rw [abs_lt]
    have hmw : (origW : ℤ) ≤ ((max origW origH : ℕ) : ℤ) := by
      exact_mod_cast Nat.le_max_left origW origH
    have hmh : (origH : ℤ) ≤ ((max origW origH : ℕ) : ℤ) := by
      exact_mod_cast Nat.le_max_right origW origH
    exact ⟨by linarith, by linarith⟩

/-- Witness for C1 at a 2 by 2 image with minimums 5 and 3; the scale is
5/2 and the output is 5 by 5. -/
theorem resolution_floor_witness :
    5 ≤ (process_image 5 3 2 2 (fun _ _ _ => 0) 1).width ∧
    3 ≤ (process_image 5 3 2 2 (fun _ _ _ => 0) 1).height ∧
    |((process_image 5 3 2 2 (fun _ _ _ => 0) 1).width : ℤ) * 2 -
        ((process_image 5 3 2 2 (fun _ _ _ => 0) 1).height : ℤ) * 2| <
      ((max 2 2 : ℕ) : ℤ) := by
  exact resolution_floor 5 3 2 2 (fun _ _ _ => 0) 1 (by decide) (by decide)
    (Or.inl (by decide))

/-- C3: an image already meeting both minimums passes through process_image
with its pixel dimensions unchanged; no downscaling ever occurs. -/
theorem upscale_only (minWidth minHeight origW origH : ℕ)
    (enc : ℕ → ℕ → ℕ → ℕ) (maxSizeKB : ℕ)
    (hw : 0 < origW) (hh : 0 < origH)
    (h1 : minWidth ≤ origW) (h2 : minHeight ≤ origH) :
    (process_image minWidth minHeight origW origH enc maxSizeKB).width = origW ∧
    (process_image minWidth minHeight origW origH enc maxSizeKB).height = origH := by
  have hw' : (0 : ℚ) < origW := by exact_mod_cast hw
  have hh' : (0 : ℚ) < origH := by exact_mod_cast hh
  have hle : scaleFor minWidth minHeight origW origH ≤ 1 := by
    refine max_le le_rfl (max_le ?_ ?_)
    · exact (div_le_one hw').mpr (by exact_mod_cast h1)
    · exact (div_le_one hh').mpr (by exact_mod_cast h2)
  have hdims : resizedDims minWidth minHeight origW origH = (origW, origH) := by
    rw [resizedDims, if_neg (not_lt.mpr hle)]
  simp [process_image, hdims]

/-- Witness for C3 at a 4 by 5 image with minimums 2 and 3. -/
theorem upscale_only_witness :
    (process_image 2 3 4 5 (fun _ _ _ => 0) 1).width = 4 ∧
    (process_image 2 3 4 5 (fun _ _ _ => 0) 1).height = 5 := by
  exact upscale_only 2 3 4 5 (fun _ _ _ => 0) 1 (by decide) (by decide)
    (by decide) (by decide)

/-- Counterexample to C4 as stated: at a 4 by 5 image with minimums 1 and 6
the scale is 6/5, the code produces (int(4.8), int(6)) = (4, 6), while
rounding to the nearest integer would give (5, 6). -/
theorem scale_truncation_counterexample :
    1 < scaleFor 1 6 4 5 ∧
    resizedDims 1 6 4 5 = (4, 6) ∧
    ((round ((4 : ℚ) * scaleFor 1 6 4 5)).toNat,
      (round ((5 : ℚ) * scaleFor 1 6 4 5)).toNat) = (5, 6) ∧
    resizedDims 1 6 4 5 ≠
      ((round ((4 : ℚ) * scaleFor 1 6 4 5)).toNat,
        (round ((5 : ℚ) * scaleFor 1 6 4 5)).toNat) := by
  have hs : scaleFor 1 6 4 5 = 6 / 5 := by
    rw [scaleFor]; norm_num
  have hd : resizedDims 1 6 4 5 = (4, 6) := by
    rw [resizedDims]
    simp only [hs]
    norm_num
    decide
  have hr : ((round ((4 : ℚ) * scaleFor 1 6 4 5)).toNat,
      (round ((5 : ℚ) * scaleFor 1 6 4 5)).toNat) = (5, 6) := by
    rw [hs, round_eq, round_eq]
    norm_num
    decide
  refine ⟨by rw [hs]; norm_num, hd, hr, ?_⟩
  rw [hd, hr]
  decide

/-- C4 amended: whenever the computed scale factor exceeds 1.0, each target
dimension is the scaled value truncated to an integer (the floor, since the
values are nonnegative), not rounded to the nearest integer. -/
theorem resized_dims_truncate (minWidth minHeight origW origH : ℕ)
    (h1 : 1 < scaleFor minWidth minHeight origW origH) :
    (((resizedDims minWidth minHeight origW origH).1 : ℚ) ≤
        (origW : ℚ) * scaleFor minWidth minHeight origW origH ∧
      (origW : ℚ) * scaleFor minWidth minHeight origW origH <
        ((resizedDims minWidth minHeight origW origH).1 : ℚ) + 1) ∧
    (((resizedDims minWidth minHeight origW origH).2 : ℚ) ≤
        (origH : ℚ) * scaleFor minWidth minHeight origW origH ∧
      (origH : ℚ) * scaleFor minWidth minHeight origW origH <
        ((resizedDims minWidth minHeight origW origH).2 : ℚ) + 1) := by
  set s := scaleFor minWidth minHeight origW origH with hsdef
  have hs0 : (0 : ℚ) < s := lt_trans one_pos h1
  have hA0 : 0 ≤ ⌊(origW : ℚ) * s⌋ := Int.floor_nonneg.mpr (by positivity)
  have hB0 : 0 ≤ ⌊(origH : ℚ) * s⌋ := Int.floor_nonneg.mpr (by positivity)
  have hdims : resizedDims minWidth minHeight origW origH =
      ((⌊(origW : ℚ) * s⌋).toNat, (⌊(origH : ℚ) * s⌋).toNat) := by
    rw [resizedDims, if_pos h1]
  have hAc : (((⌊(origW : ℚ) * s⌋).toNat : ℕ) : ℚ) = ((⌊(origW : ℚ) * s⌋ : ℤ) : ℚ) := by
    exact_mod_cast congrArg (fun z : ℤ => (z : ℚ)) (Int.toNat_of_nonneg hA0)
  have hBc : (((⌊(origH : ℚ) * s⌋).toNat : ℕ) : ℚ) = ((⌊(origH : ℚ) * s⌋ : ℤ) : ℚ) := by
    exact_mod_cast congrArg (fun z : ℤ => (z : ℚ)) (Int.toNat_of_nonneg hB0)
  rw [hdims]
  refine ⟨⟨?_, ?_⟩, ?_, ?_⟩
  · rw [hAc]; exact Int.floor_le _
  · rw [hAc]; exact Int.lt_floor_add_one _
  · rw [hBc]; exact Int.floor_le _
  · rw [hBc]; exact Int.lt_floor_add_one _

/-- Witness for the amended C4 at the counterexample input: the scale is 6/5
and the target dimensions bracket 4.8 and 6 from below. -/
theorem resized_dims_truncate_witness :
    (((resizedDims 1 6 4 5).1 : ℚ) ≤ (4 : ℚ) * scaleFor 1 6 4 5 ∧
      (4 : ℚ) * scaleFor 1 6 4 5 < ((resizedDims 1 6 4 5).1 : ℚ) + 1) ∧
    (((resizedDims 1 6 4 5).2 : ℚ) ≤ (5 : ℚ) * scaleFor 1 6 4 5 ∧
      (5 : ℚ) * scaleFor 1 6 4 5 < ((resizedDims 1 6 4 5).2 : ℚ) + 1) := by
  exact resized_dims_truncate 1 6 4 5 (by rw [scaleFor]; norm_num)

end BatchResizer
